import Mathlib

/-
Verification of crabtrap, a syscall-filtering sandbox supervisor for Linux
on AArch64. The Rust sources are shallowly embedded: u64 values are Nat
with explicit reduction modulo 2 ^ 64 where the code casts, BTreeMap and
BTreeSet become association lists and lists, ptrace memory reads become a
total function Nat -> Nat, and the fallible parsers return Except.
-/

namespace Crabtrap

/-- Number of values of a 64-bit machine word. -/
def U64 : Nat := 2 ^ 64

/-! ## config.rs -/

/-- ConfigEntry (config.rs): two optional sets of syscall numbers.
BTreeSet of Sysno is embedded as a list of Nat; set membership is
linear search, identical extensionally. -/
structure ConfigEntry where
  allow : Option (List Nat)
  block : Option (List Nat)
deriving DecidableEq

/-- Config (config.rs): shared_objects is a BTreeMap from object path to
ConfigEntry, embedded as an association list (keys unique in any map a
BTreeMap can denote; get takes the first binding). Paths are List Char. -/
structure Config where
  shared_objects : List (List Char × ConfigEntry)
deriving DecidableEq

/-- Check (config.rs): the three-valued verdict. -/
inductive Check where
  | Allowed
  | Blocked
  | Unknown
deriving DecidableEq

/-- Embedding of BTreeMap::get on the association list: first binding wins. -/
def getSO : List (List Char × ConfigEntry) → List Char → Option ConfigEntry
  | [], _ => none
  | (k, v) :: rest, key => if k = key then some v else getSO rest key

/-- Embedding of opt.as_ref().is_some_and(|s| s.contains(&x)). -/
def optContains (o : Option (List Nat)) (n : Nat) : Bool :=
  match o with
  | some l => l.contains n
  | none => false

/-- Config::check (config.rs lines 30-51): allow wins over block; an absent
path or an entry deciding neither way yields Unknown. -/
def Config.check (cfg : Config) (loc : List Char) (syscall : Nat) : Check :=
  match getSO cfg.shared_objects loc with
  | some entry =>
    if optContains entry.allow syscall then Check.Allowed
    else if optContains entry.block syscall then Check.Blocked
    else Check.Unknown
  | none => Check.Unknown

/-! ## map.rs -/

/-- Region (map.rs): one memory region. The Rust field named end is
end_ here (end is a Lean keyword); path is a List Char. -/
structure Region where
  start : Nat
  end_ : Nat
  path : List Char
deriving DecidableEq

/-- Error kinds of u64::from_str_radix (std ParseIntError kinds that can
arise here). -/
inductive IntErrorKind where
  | Empty
  | InvalidDigit
  | PosOverflow
deriving DecidableEq

/-- MemoryMapError (map.rs): RegexError carries the offending line,
ParseIntError the line and the cause. -/
inductive MemoryMapError where
  | RegexError (line : List Char)
  | ParseIntError (line : List Char) (cause : IntErrorKind)
deriving DecidableEq

/-- Embedding of char::to_digit(16) by code point: 48..57 are the decimal
digits, 97..102 the lowercase and 65..70 the uppercase hex letters. -/
def hexDigit? (c : Char) : Option Nat :=
  if 48 ≤ c.toNat ∧ c.toNat ≤ 57 then some (c.toNat - 48)
  else if 97 ≤ c.toNat ∧ c.toNat ≤ 102 then some (c.toNat - 97 + 10)
  else if 65 ≤ c.toNat ∧ c.toNat ≤ 70 then some (c.toNat - 65 + 10)
  else none

/-- POSIX [[:xdigit:]], exactly the domain of hexDigit?. -/
def isXDigit (c : Char) : Bool := (hexDigit? c).isSome

/-- Digit-accumulation loop of u64::from_str_radix with the u64 overflow
check made explicit: the running value never reaches 2 ^ 64. -/
def hexAccum : List Char → Nat → Except IntErrorKind Nat
  | [], acc => Except.ok acc
  | c :: rest, acc =>
    match hexDigit? c with
    | none => Except.error IntErrorKind.InvalidDigit
    | some d =>
      if 2 ^ 64 ≤ acc * 16 + d then Except.error IntErrorKind.PosOverflow
      else hexAccum rest (acc * 16 + d)

/-- Embedding of u64::from_str_radix(s, 16): empty input is Empty, a
leading plus sign is consumed (a minus sign on an unsigned type falls
through and fails as an invalid digit), then digits accumulate. -/
def u64_from_str_radix_16 (s : List Char) : Except IntErrorKind Nat :=
  match s with
  | [] => Except.error IntErrorKind.Empty
  | c :: rest =>
    if c = '+' then
      if rest = [] then Except.error IntErrorKind.InvalidDigit else hexAccum rest 0
    else hexAccum (c :: rest) 0

/-- Capture of the (?<path>.*) group of the region regex
  ^(?<start>[[:xdigit:]]\x7b12\x7d)-(?<end>[[:xdigit:]]\x7b12\x7d)[^/\[]*(?<path>.*)$
after the 25 mandatory characters: the greedy [^/\[]* consumes the longest
run free of a slash and of an opening square bracket, so path starts at the
first such character (or is empty). -/
def pathCapture (s : List Char) : List Char :=
  (s.drop 25).dropWhile (fun c => !(c == '/' || c == '['))

/-- Match test of the region regex: 12 hex digits, a dash, 12 hex digits,
then the rest. The dot of the Rust regex crate does not match a newline
(and the match is anchored), so a newline inside the path capture defeats
the match; a newline consumed by [^/\[]* does not. -/
def regexOk (s : List Char) : Bool :=
  decide (25 ≤ s.length) && (s.take 12).all isXDigit && (s.get? 12 == some '-')
    && ((s.drop 13).take 12).all isXDigit && !((pathCapture s).contains '\n')

/-- Region::from_str (map.rs lines 26-47): on a regex match, parse the two
hex captures (each failure keeps the whole line in the error), else
RegexError with the line. -/
def Region.from_str (s : List Char) : Except MemoryMapError Region :=
  if regexOk s then
    match u64_from_str_radix_16 (s.take 12) with
    | Except.error e => Except.error (MemoryMapError.ParseIntError s e)
    | Except.ok start =>
      match u64_from_str_radix_16 ((s.drop 13).take 12) with
      | Except.error e => Except.error (MemoryMapError.ParseIntError s e)
      | Except.ok stop => Except.ok ⟨start, stop, pathCapture s⟩
  else Except.error (MemoryMapError.RegexError s)

/-- Carriage-return stripping str::lines applies to a piece terminated by
a newline. -/
def stripCR (l : List Char) : List Char :=
  match l.getLast? with
  | some c => if c = '\r' then l.dropLast else l
  | none => l

/-- Worker for rustLines: acc holds the current piece reversed. -/
def rustLinesAux (acc : List Char) : List Char → List (List Char)
  | [] => if acc.isEmpty then [] else [acc.reverse]
  | c :: rest =>
    if c = '\n' then stripCR acc.reverse :: rustLinesAux [] rest
    else rustLinesAux (c :: acc) rest

/-- Embedding of str::lines: split at newlines, strip a carriage return
before each newline, drop the final piece when the text ends with a
newline (the final line terminator is optional). -/
def rustLines (s : List Char) : List (List Char) := rustLinesAux [] s

/-- Joining a list of lines with newlines (used to state permutations of a
snapshot text). -/
def joinLines : List (List Char) → List Char
  | [] => []
  | [l] => l
  | l :: ls => l ++ '\n' :: joinLines ls

/-- Embedding of collect::<Result<Vec<Region>, MemoryMapError>> over the
mapped lines: the first error short-circuits. -/
def collectRegions : List (List Char) → Except MemoryMapError (List Region)
  | [] => Except.ok []
  | l :: rest =>
    match Region.from_str l with
    | Except.error e => Except.error e
    | Except.ok r =>
      match collectRegions rest with
      | Except.error e => Except.error e
      | Except.ok rs => Except.ok (r :: rs)

/-- Embedding of region.path.starts_with('/'). -/
def startsWithSlash (p : List Char) : Bool :=
  match p with
  | c :: _ => c == '/'
  | [] => false

/-- Comparator of files.sort_by(|a, b| a.start.cmp(&b.start)). -/
def leStart (a b : Region) : Prop := a.start ≤ b.start

instance : DecidableRel leStart := fun a b => Nat.decLe a.start b.start

instance : IsTotal Region leStart := ⟨fun a b => Nat.le_total a.start b.start⟩

instance : IsTrans Region leStart := ⟨fun _ _ _ h h' => Nat.le_trans h h'⟩

/-- Embedding of the stable sort files.sort_by(|a, b| a.start.cmp(&b.start)).
Rust sort_by is a stable sort; insertionSort is stable for the same total
preorder, so the two agree extensionally on every input. -/
def sortByStart (l : List Region) : List Region := List.insertionSort leStart l

/-- MemoryMap (map.rs): the retained file-backed regions. -/
structure MemoryMap where
  files : List Region
deriving DecidableEq

/-- MemoryMap::from_str (map.rs lines 70-87): parse every line, keep the
regions whose path starts with a slash, sort by start. -/
def MemoryMap.from_str (s : List Char) : Except MemoryMapError MemoryMap :=
  match collectRegions (rustLines s) with
  | Except.error e => Except.error e
  | Except.ok files =>
    Except.ok ⟨sortByStart (files.filter (fun r => startsWithSlash r.path))⟩

/-- MemoryMap::lookup (map.rs lines 97-105): path of the first region whose
closed interval [start, end] contains the address. -/
def MemoryMap.lookup (m : MemoryMap) (addr : Nat) : Option (List Char) :=
  (m.files.find? (fun file => decide (file.start ≤ addr) && decide (addr ≤ file.end_))).map
    Region.path

/-! ## lib.rs: handle_syscall (lines 58-110)

The stopped tracee is modelled by its register file and a total memory-read
function mem : Nat -> Nat (ptrace read; a failed read panics in the source,
so the executions modelled are those whose reads succeed). The snapshot
refresh of lines 62-75 reads procfs; the map argument below is the map the
decision pipeline of lines 77-109 runs against, i.e. the refreshed one when
the syscall is address-space affecting. The unbounded frame-pointer loop is
embedded with explicit fuel: a none result means the loop has not finished
within the given fuel. -/

/-- AArch64 user register file as getregs returns it: x0..x30 and pc.
Values are reduced modulo 2 ^ 64 at every use. -/
structure Regs where
  regs : Fin 31 → Nat
  pc : Nat

/-- ChildExit (lib.rs lines 39-43). -/
inductive ChildExit where
  | Exited (code : Int)
  | IllegalSyscall (syscall : Nat) (path : List Char)
deriving DecidableEq

/-- Body shared by the probes of handle_syscall: look the address up in the
map and consult the policy. some r means the match returned (r is the
returned value), none means fall through to the next probe. -/
def probeStep (cfg : Config) (map : MemoryMap) (syscall : Nat) (addr : Nat) :
    Option (Option ChildExit) :=
  match map.lookup addr with
  | some loc =>
    match cfg.check loc syscall with
    | Check.Allowed => some none
    | Check.Blocked => some (some (ChildExit.IllegalSyscall syscall loc))
    | Check.Unknown => none
  | none => none

/-- Iterated frame-pointer chain: fpChain mem fp k is the frame pointer
after k steps of following the word stored at the current frame pointer
(cast to u64, as the source casts the ptrace word). -/
def fpChain (mem : Nat → Nat) (fp : Nat) : Nat → Nat
  | 0 => fp
  | k + 1 => mem (fpChain mem fp k) % U64

/-- Saved link registers yielded by the loop of lib.rs lines 87-107, with
fuel: at each step with a nonzero frame pointer, the word at fp + 8 is the
saved lr (yielded) and the word at fp is the next frame pointer. -/
def walkLRs (mem : Nat → Nat) : Nat → Nat → Option (List Nat)
  | 0, fp => if fp = 0 then some [] else none
  | fuel + 1, fp =>
    if fp = 0 then some []
    else
      match walkLRs mem fuel (mem fp % U64) with
      | some rest => some (mem ((fp + 8) % U64) % U64 :: rest)
      | none => none

/-- Decision loop of lib.rs lines 87-107 with fuel: probe each saved lr in
turn, short-circuiting on a decisive verdict. -/
def walkDecide (cfg : Config) (map : MemoryMap) (syscall : Nat) (mem : Nat → Nat) :
    Nat → Nat → Option (Option ChildExit)
  | 0, fp => if fp = 0 then some none else none
  | fuel + 1, fp =>
    if fp = 0 then some none
    else
      match probeStep cfg map syscall (mem ((fp + 8) % U64) % U64) with
      | some r => some r
      | none => walkDecide cfg map syscall mem fuel (mem fp % U64)

/-- handle_syscall (lib.rs lines 58-110), decision pipeline: syscall number
from x8 truncated to 32 bits, probe pc then x30, then walk the frame chain.
some r is the value the Rust function returns; none means the frame walk
did not terminate within fuel. -/
def handle_syscall (cfg : Config) (map : MemoryMap) (regs : Regs) (mem : Nat → Nat)
    (fuel : Nat) : Option (Option ChildExit) :=
  let syscall := regs.regs 8 % 2 ^ 32
  match probeStep cfg map syscall (regs.pc % U64) with
  | some r => some r
  | none =>
    match probeStep cfg map syscall (regs.regs 30 % U64) with
    | some r => some r
    | none => walkDecide cfg map syscall mem fuel (regs.regs 29 % U64)

/-- Full probe-address sequence of one syscall stop: pc, then x30, then the
saved link registers of the frame walk. -/
def probeAddresses (regs : Regs) (mem : Nat → Nat) (fuel : Nat) : Option (List Nat) :=
  match walkLRs mem fuel (regs.regs 29 % U64) with
  | some lrs => some (regs.pc % U64 :: regs.regs 30 % U64 :: lrs)
  | none => none

/-- Spec-side definition (spec 4.D.3) for the refinement claim C1: the
first decisive verdict over the probe-address list. Allowed permits the
call (none), Blocked returns IllegalSyscall, Unknown and unmapped addresses
fall through; an exhausted list permits the call (default allow). -/
def firstDecisiveVerdict (cfg : Config) (map : MemoryMap) (syscall : Nat) :
    List Nat → Option ChildExit
  | [] => none
  | addr :: rest =>
    match probeStep cfg map syscall addr with
    | some r => r
    | none => firstDecisiveVerdict cfg map syscall rest

/-! ## lib.rs: the parent supervisor loop (lines 113-212)

The loop is modelled as a step function over the stream of waitpid
results. A PtraceSyscall stop carries the value handle_syscall produced
for it (the map cache and ptrace side effects live outside the model); the
other constructors mirror the match arms of the source. -/

/-- One waitpid observation as the dispatch of lib.rs lines 138-210 sees
it. otherStatus covers the catch-all Ok(status) arm (including ptrace
events other than exec/fork/vfork/clone), waitError the catch-all Err
arm. -/
inductive WEvent where
  | exited (pid : Nat) (code : Int)
  | ptraceSyscall (pid : Nat) (handled : Option ChildExit)
  | stopped (pid : Nat) (signal : Nat)
  | ptraceEventExec (pid : Nat)
  | ptraceEventForkLike (pid : Nat) (newPid : Nat)
  | echild
  | otherStatus
  | waitError
deriving DecidableEq

/-- Outcome of running the modelled loop on a finite event stream. -/
inductive LoopResult where
  | ret (exit : ChildExit)
  | fatal
  | pending
deriving DecidableEq

/-- Linux SIGSTOP number. -/
def SIGSTOP : Nat := 19

/-- Event loop of parent (lib.rs lines 138-211) as a step function: state
is the recorded root exit code and the ignore_next_stop set (a list of
pids). ret is a return of the Rust function, fatal a panic, pending an
exhausted model stream (the real loop would block in waitpid). -/
def parent_loop (root : Nat) : List WEvent → Option Int → List Nat → LoopResult
  | [], _, _ => LoopResult.pending
  | e :: evs, child_exit, ignore_next_stop =>
    match e with
    | WEvent.echild =>
      match child_exit with
      | some code => LoopResult.ret (ChildExit.Exited code)
      | none => LoopResult.fatal
    | WEvent.exited pid code =>
      parent_loop root evs (if pid = root then some code else child_exit) ignore_next_stop
    | WEvent.ptraceSyscall _ handled =>
      match handled with
      | some exit => LoopResult.ret exit
      | none => parent_loop root evs child_exit ignore_next_stop
    | WEvent.stopped pid signal =>
      if signal = SIGSTOP ∧ pid ∈ ignore_next_stop then
        parent_loop root evs child_exit (ignore_next_stop.erase pid)
      else parent_loop root evs child_exit ignore_next_stop
    | WEvent.ptraceEventExec _ => parent_loop root evs child_exit ignore_next_stop
    | WEvent.ptraceEventForkLike _ newPid =>
      if newPid ∈ ignore_next_stop then LoopResult.fatal
      else parent_loop root evs child_exit (newPid :: ignore_next_stop)
    | WEvent.otherStatus => LoopResult.fatal
    | WEvent.waitError => LoopResult.fatal

/-! ## Derived definitions used by the theorems -/

/-- Value of a list of hex digits, as the successful accumulation of
u64_from_str_radix_16 computes it. -/
def hexFoldVal (s : List Char) : Nat :=
  s.foldl (fun a c => a * 16 + (hexDigit? c).getD 0) 0

/-- Region a matching line parses to. -/
def parsedRegion (s : List Char) : Region :=
  ⟨hexFoldVal (s.take 12), hexFoldVal ((s.drop 13).take 12), pathCapture s⟩

/-- Covering predicate of MemoryMap::lookup: the closed interval test. -/
def covers (r : Region) (addr : Nat) : Prop := r.start ≤ addr ∧ addr ≤ r.end_

/-- Strict start order on regions, used to show a sort with pairwise
distinct start addresses is unique. -/
def ltStart (a b : Region) : Prop := a.start < b.start

instance : IsAntisymm Region ltStart :=
  ⟨fun _ _ h h' => absurd (Nat.lt_trans h h') (Nat.lt_irrefl _)⟩

/-- Sample well-formed procfs lines and texts (used as concrete inputs in
witnesses and counterexamples). -/
def lineA : List Char := "000000000000-000000000001 r-xp 00000000 00:00 1 /a".data

def lineB : List Char := "000000000002-000000000003 r-xp 00000000 00:00 1 /b".data

def lineHeap : List Char :=
  "000000000004-000000000005 rw-p 00000000 00:00 0 [heap]".data

/-- Line with the same start as lineA but another path. -/
def lineA2 : List Char := "000000000000-000000000002 r-xp 00000000 00:00 1 /c".data

def textAB : List Char := joinLines [lineA, lineB]

def textBHeapA : List Char := joinLines [lineB, lineHeap, lineA]

def textBlank : List Char := joinLines [lineA, [], lineB]

def textSameAB : List Char := joinLines [lineA, lineA2]

def textSameBA : List Char := joinLines [lineA2, lineA]

/-- Regions the sample lines parse to. -/
def regionA : Region := ⟨0, 1, "/a".data⟩

def regionB : Region := ⟨2, 3, "/b".data⟩

def regionA2 : Region := ⟨0, 2, "/c".data⟩

/-- Sample tracee memory for the walk witnesses: one frame record at 16,
saved lr 100 at 24, next frame pointer 0 at 16. -/
def memW : Nat → Nat := fun a => if a = 24 then 100 else 0

/-- Sample register file: x29 = 16, x8 = 64 (write), pc = 5, x30 = 0. -/
def regsW : Regs :=
  ⟨fun i => if (i : Nat) = 29 then 16 else if (i : Nat) = 8 then 64 else 0, 5⟩

/-- Register file whose frame pointer chain never reaches 0 under the
constant-1 memory. -/
def regsCyc : Regs := ⟨fun _ => 1, 0⟩

/-- Sample policy blocking syscall 64 for /a. -/
def cfgW : Config := ⟨[("/a".data, ⟨none, some [64]⟩)]⟩

/-- Sample map for the walk witnesses. -/
def mapW : MemoryMap := ⟨[regionA, regionB]⟩

/-- Sample event stream: the root (pid 1) exits with code 7, then ECHILD. -/
def evsW : List WEvent := [WEvent.exited 1 7, WEvent.echild]

/-- Conclusion shape of the supervisor-exit analysis: some ECHILD event at
index j returns the loop, and the code k comes from the last root exit
before j, or from the incoming recorded code when no root exit precedes
j. -/
def exitedBefore (root : Nat) (evs : List WEvent) (cur : Option Int) (k : Int) : Prop :=
  ∃ j, evs.get? j = some WEvent.echild ∧
    ((∃ i, i < j ∧ evs.get? i = some (WEvent.exited root k) ∧
        ∀ m c, i < m → m < j → evs.get? m ≠ some (WEvent.exited root c))
      ∨ (cur = some k ∧ ∀ m c, m < j → evs.get? m ≠ some (WEvent.exited root c)))

/-! ## Theorems -/

theorem covers_decide (r : Region) (addr : Nat) :
    ((decide (r.start ≤ addr) && decide (addr ≤ r.end_)) = true) ↔ covers r addr := by
  simp [covers]

/-- C2, sanity: an entry with the same syscall in both sets yields Allowed. -/
example :
    Config.check
      ⟨[(['/', 'x'], ⟨some [64], some [64]⟩)]⟩ ['/', 'x'] 64 = Check.Allowed := by
  rfl

/-- C2: Config::check is Allowed iff the path is bound and the syscall is in
the allow set; otherwise Blocked iff the path is bound, the syscall is not
in the allow set and is in the block set; otherwise Unknown; and when both
sets of an entry contain the syscall the verdict is Allowed. -/
theorem spec_C2_check_characterization :
    ∀ (cfg : Config) (q : List Char) (s : Nat),
      (Config.check cfg q s = Check.Allowed ↔
        ∃ e, getSO cfg.shared_objects q = some e ∧ optContains e.allow s = true)
      ∧ (Config.check cfg q s = Check.Blocked ↔
        ∃ e, getSO cfg.shared_objects q = some e ∧ optContains e.allow s = false
          ∧ optContains e.block s = true)
      ∧ (Config.check cfg q s = Check.Unknown ↔
        (getSO cfg.shared_objects q = none ∨
          ∃ e, getSO cfg.shared_objects q = some e ∧ optContains e.allow s = false
            ∧ optContains e.block s = false))
      ∧ (∀ e la lb, getSO cfg.shared_objects q = some e → e.allow = some la →
          e.block = some lb → s ∈ la → s ∈ lb → Config.check cfg q s = Check.Allowed) := by
  intro cfg q s
  have hboth : ∀ e la lb, getSO cfg.shared_objects q = some e → e.allow = some la →
      e.block = some lb → s ∈ la → s ∈ lb → Config.check cfg q s = Check.Allowed := by
    intro e la lb hg ha _ hs _
    have hac : optContains e.allow s = true := by
      simp [optContains, ha, List.contains, List.elem_iff, hs]
    simp [Config.check, hg, hac]
  refine ⟨?_, ?_, ?_, hboth⟩ <;>
  · cases hg : getSO cfg.shared_objects q with
    | none => simp [Config.check, hg]
    | some e =>
      by_cases ha : optContains e.allow s = true
      · simp [Config.check, hg, ha]
      · by_cases hb : optContains e.block s = true
        · simp [Config.check, hg, ha, hb]
        · simp [Config.check, hg, ha, hb]

/-- C6: lookup returns some p exactly when some region covers the address
(inclusively at both ends) and p is the path of the first such region;
otherwise it returns none; and for a region that is the first one covering
its own start (resp. end) address, lookup at that address returns its
path. -/
theorem spec_C6_lookup_first_covering :
    ∀ (m : MemoryMap) (addr : Nat) (p : List Char),
      (m.lookup addr = some p ↔
        ∃ r pre post, m.files = pre ++ r :: post ∧ covers r addr ∧ p = r.path
          ∧ ∀ q ∈ pre, ¬covers q addr)
      ∧ (m.lookup addr = none ↔ ∀ r ∈ m.files, ¬covers r addr)
      ∧ (∀ pre r post, m.files = pre ++ r :: post → r.start ≤ r.end_ →
          (∀ q ∈ pre, ¬covers q r.start) → m.lookup r.start = some r.path)
      ∧ (∀ pre r post, m.files = pre ++ r :: post → r.start ≤ r.end_ →
          (∀ q ∈ pre, ¬covers q r.end_) → m.lookup r.end_ = some r.path) := by
  intro m addr p
  have hsome : ∀ (a : Nat) (q : List Char), (m.lookup a = some q ↔
      ∃ r pre post, m.files = pre ++ r :: post ∧ covers r a ∧ q = r.path
        ∧ ∀ x ∈ pre, ¬covers x a) := by
    intro a q
    unfold MemoryMap.lookup
    rw [Option.map_eq_some']
    constructor
    · rintro ⟨r, hr, hpath⟩
      rw [List.find?_eq_some] at hr
      obtain ⟨hcov, pre, post, hsplit, hpre⟩ := hr
      refine ⟨r, pre, post, hsplit, (covers_decide r a).mp hcov, hpath.symm, ?_⟩
      intro x hx hcx
      have := hpre x hx
      rw [Bool.not_eq_true', ← Bool.not_eq_true] at this
      exact this ((covers_decide x a).mpr hcx)
    · rintro ⟨r, pre, post, hsplit, hcov, hpath, hpre⟩
      refine ⟨r, ?_, hpath.symm⟩
      rw [List.find?_eq_some]
      refine ⟨(covers_decide r a).mpr hcov, pre, post, hsplit, ?_⟩
      intro x hx
      rw [Bool.not_eq_true', ← Bool.not_eq_true]
      intro hcx
      exact hpre x hx ((covers_decide x a).mp hcx)
  refine ⟨hsome addr p, ?_, ?_, ?_⟩
  · unfold MemoryMap.lookup
    rw [Option.map_eq_none', List.find?_eq_none]
    constructor
    · intro h r hr hc
      exact (h r hr) ((covers_decide r addr).mpr hc)
    · intro h r hr hc
      exact (h r hr) ((covers_decide r addr).mp hc)
  · intro pre r post hsplit hle hpre
    exact (hsome r.start r.path).mpr ⟨r, pre, post, hsplit, ⟨le_refl _, hle⟩, rfl, hpre⟩
  · intro pre r post hsplit hle hpre
    exact (hsome r.end_ r.path).mpr ⟨r, pre, post, hsplit, ⟨hle, le_refl _⟩, rfl, hpre⟩

/-- Hexadecimal digits have value at most 15. -/
theorem hexDigit_le (c : Char) (d : Nat) (h : hexDigit? c = some d) : d ≤ 15 := by
  unfold hexDigit? at h
  split_ifs at h with h1 h2 h3 <;> injection h with h' <;> omega

/-- Accumulation never overflows while the bound keeps the value below
2 ^ 64, and computes the hex fold. -/
theorem hexAccum_ok (ds : List Char) : ∀ acc : Nat, (∀ c ∈ ds, isXDigit c = true) →
    (acc + 1) * 16 ^ ds.length ≤ 2 ^ 64 →
    hexAccum ds acc =
      Except.ok (ds.foldl (fun a c => a * 16 + (hexDigit? c).getD 0) acc) := by
  induction ds with
  | nil => intro acc _ _; rfl
  | cons c rest ih =>
    intro acc hx hbound
    obtain ⟨d, hd⟩ :=
      Option.isSome_iff_exists.mp (hx c (List.mem_cons_self c rest))
    have hd15 : d ≤ 15 := hexDigit_le c d hd
    have hpow : 16 ≤ 16 ^ (rest.length + 1) := by
      calc 16 = 16 ^ 1 := by norm_num
        _ ≤ 16 ^ (rest.length + 1) := Nat.pow_le_pow_right (by norm_num) (by omega)
    have h16 : (acc + 1) * 16 ≤ 2 ^ 64 := by
      calc (acc + 1) * 16 ≤ (acc + 1) * 16 ^ (rest.length + 1) :=
            Nat.mul_le_mul_left _ hpow
        _ ≤ 2 ^ 64 := by simpa using hbound
    have hno : ¬ 2 ^ 64 ≤ acc * 16 + d := by omega
    have hx' : ∀ x ∈ rest, isXDigit x = true := fun x hm => hx x (List.mem_cons_of_mem _ hm)
    have hstep : (acc * 16 + d + 1) * 16 ^ rest.length ≤ 2 ^ 64 := by
      have hle : acc * 16 + d + 1 ≤ (acc + 1) * 16 := by omega
      calc (acc * 16 + d + 1) * 16 ^ rest.length
          ≤ (acc + 1) * 16 * 16 ^ rest.length := Nat.mul_le_mul_right _ hle
        _ = (acc + 1) * 16 ^ (rest.length + 1) := by ring
        _ ≤ 2 ^ 64 := by simpa using hbound
    simp only [hexAccum, hd, if_neg hno, List.foldl_cons, Option.getD_some]
    exact ih (acc * 16 + d) hx' hstep

/-- A nonempty all-hex string of at most 16 digits parses, to its hex
fold value; in particular every 12-digit regex capture parses. -/
theorem u64_parse_ok (ds : List Char) (hlen : ds.length = 12)
    (hx : ∀ c ∈ ds, isXDigit c = true) :
    u64_from_str_radix_16 ds = Except.ok (hexFoldVal ds) := by
  cases ds with
  | nil => simp at hlen
  | cons c rest =>
    have hc : isXDigit c = true := hx c (List.mem_cons_self _ _)
    have hca : c ≠ '+' := by
      intro h
      rw [h] at hc
      exact absurd hc (by decide)
    have hbound : (0 + 1) * 16 ^ (c :: rest).length ≤ 2 ^ 64 := by
      rw [hlen]; norm_num
    have hred : u64_from_str_radix_16 (c :: rest) =
        if c = '+' then
          if rest = [] then Except.error IntErrorKind.InvalidDigit else hexAccum rest 0
        else hexAccum (c :: rest) 0 := rfl
    rw [hred, if_neg hca]
    exact hexAccum_ok (c :: rest) 0 hx hbound

/-- A line matching the regex parses to its captured region. -/
theorem regionFromStr_ok (s : List Char) (h : regexOk s = true) :
    Region.from_str s = Except.ok (parsedRegion s) := by
  have h' := h
  simp only [regexOk, Bool.and_eq_true, decide_eq_true_eq, List.all_eq_true] at h'
  obtain ⟨⟨⟨⟨hlen, hx1⟩, _⟩, hx2⟩, _⟩ := h'
  have hlen1 : (s.take 12).length = 12 := by
    rw [List.length_take]; omega
  have hlen2 : ((s.drop 13).take 12).length = 12 := by
    rw [List.length_take, List.length_drop]; omega
  unfold Region.from_str
  rw [if_pos h, u64_parse_ok _ hlen1 hx1, u64_parse_ok _ hlen2 hx2]
  rfl

/-- A line failing the regex is rejected with RegexError carrying the
line. -/
theorem regionFromStr_err (s : List Char) (h : regexOk s = false) :
    Region.from_str s = Except.error (MemoryMapError.RegexError s) := by
  unfold Region.from_str
  rw [if_neg (by simp [h])]

/-- Collecting lines that all match yields the mapped regions. -/
theorem collectRegions_ok (ls : List (List Char)) (h : ∀ l ∈ ls, regexOk l = true) :
    collectRegions ls = Except.ok (ls.map parsedRegion) := by
  induction ls with
  | nil => rfl
  | cons l rest ih =>
    have h1 := regionFromStr_ok l (h l (List.mem_cons_self _ _))
    have h2 := ih fun x hm => h x (List.mem_cons_of_mem _ hm)
    simp only [collectRegions, h1, h2, List.map_cons]

/-- Collection fails exactly when some line fails the regex. -/
theorem collectRegions_err_iff (ls : List (List Char)) :
    (∃ e, collectRegions ls = Except.error e) ↔ ∃ l, l ∈ ls ∧ regexOk l = false := by
  induction ls with
  | nil =>
    constructor
    · rintro ⟨e, he⟩; cases he
    · rintro ⟨l, hm, _⟩; cases hm
  | cons l rest ih =>
    by_cases hl : regexOk l = true
    · rw [show collectRegions (l :: rest) =
          match collectRegions rest with
          | Except.error e => Except.error e
          | Except.ok rs => Except.ok (parsedRegion l :: rs) from by
        simp only [collectRegions, regionFromStr_ok l hl]]
      cases hc : collectRegions rest with
      | error e =>
        simp only []
        constructor
        · intro _
          obtain ⟨l', hm', hf'⟩ := ih.mp ⟨e, hc⟩
          exact ⟨l', List.mem_cons_of_mem _ hm', hf'⟩
        · intro _; exact ⟨e, rfl⟩
      | ok rs =>
        simp only []
        constructor
        · rintro ⟨e, he⟩; cases he
        · rintro ⟨l', hm', hf'⟩
          rcases List.mem_cons.mp hm' with rfl | hm''
          · rw [hl] at hf'; cases hf'
          · obtain ⟨e, he⟩ := ih.mpr ⟨l', hm'', hf'⟩
            rw [he] at hc; cases hc
    · have hl' : regexOk l = false := by simpa using hl
      constructor
      · intro _; exact ⟨l, List.mem_cons_self _ _, hl'⟩
      · intro _
        refine ⟨MemoryMapError.RegexError l, ?_⟩
        simp only [collectRegions, regionFromStr_err l hl']

/-- Collection either succeeds or fails with a RegexError. -/
theorem collectRegions_cases (ls : List (List Char)) :
    (∃ rs, collectRegions ls = Except.ok rs) ∨
      ∃ l, collectRegions ls = Except.error (MemoryMapError.RegexError l) := by
  induction ls with
  | nil => exact Or.inl ⟨[], rfl⟩
  | cons l rest ih =>
    by_cases hl : regexOk l = true
    · rcases ih with ⟨rs, hrs⟩ | ⟨l', hl'⟩
      · exact Or.inl ⟨parsedRegion l :: rs,
          by simp only [collectRegions, regionFromStr_ok l hl, hrs]⟩
      · exact Or.inr ⟨l',
          by simp only [collectRegions, regionFromStr_ok l hl, hl']⟩
    · have hl' : regexOk l = false := by simpa using hl
      exact Or.inr ⟨l, by simp only [collectRegions, regionFromStr_err l hl']⟩

/-- C10: Region::from_str never returns ParseIntError: a line either
matches the regex, in which case both 12-hex-digit captures convert
successfully and the parsed region is returned, or it is rejected with
RegexError; consequently MemoryMap parsing either succeeds or fails with a
RegexError. -/
theorem spec_C10_no_parse_int_error :
    ∀ s : List Char,
      ((regexOk s = true ∧ Region.from_str s = Except.ok (parsedRegion s))
        ∨ (regexOk s = false ∧
            Region.from_str s = Except.error (MemoryMapError.RegexError s)))
      ∧ ((∃ m, MemoryMap.from_str s = Except.ok m)
        ∨ ∃ l, MemoryMap.from_str s = Except.error (MemoryMapError.RegexError l)) := by
  intro s
  constructor
  · by_cases h : regexOk s = true
    · exact Or.inl ⟨h, regionFromStr_ok s h⟩
    · have h' : regexOk s = false := by simpa using h
      exact Or.inr ⟨h', regionFromStr_err s h'⟩
  · rcases collectRegions_cases (rustLines s) with ⟨rs, hrs⟩ | ⟨l, hl⟩
    · exact Or.inl ⟨⟨sortByStart (rs.filter fun r => startsWithSlash r.path)⟩,
        by simp only [MemoryMap.from_str, hrs]⟩
    · exact Or.inr ⟨l, by simp only [MemoryMap.from_str, hl]⟩

/-- C8 (amended): MemoryMap parsing fails exactly when some line of the
snapshot, blank lines included, fails the syntactic pattern. -/
theorem spec_C8_error_iff_bad_line :
    ∀ s : List Char,
      (∃ e, MemoryMap.from_str s = Except.error e) ↔
        ∃ l, l ∈ rustLines s ∧ regexOk l = false := by
  intro s
  rw [← collectRegions_err_iff]
  cases hc : collectRegions (rustLines s) with
  | error e =>
    simp only [MemoryMap.from_str, hc]
    exact ⟨fun _ => ⟨e, rfl⟩, fun _ => ⟨e, rfl⟩⟩
  | ok rs =>
    simp only [MemoryMap.from_str, hc]
    constructor
    · rintro ⟨e, he⟩; cases he
    · rintro ⟨e, he⟩; cases he

/-- C8, counterexample: a snapshot whose non-blank lines are well formed
but which contains a blank line is rejected (with a RegexError on the
empty line), where the claim says it parses successfully. -/
theorem spec_C8_counterexample :
    MemoryMap.from_str textBlank = Except.error (MemoryMapError.RegexError [])
    ∧ ((rustLines textBlank).all fun l => l.isEmpty || regexOk l) = true := by
  exact ⟨rfl, by decide⟩

/-- Lines of a successfully parsed snapshot all match the regex. -/
theorem fromStr_ok_lines {s : List Char} {m : MemoryMap}
    (h : MemoryMap.from_str s = Except.ok m) :
    ∀ l ∈ rustLines s, regexOk l = true := by
  intro l hl
  by_cases hbad : regexOk l = true
  · exact hbad
  · obtain ⟨e, he⟩ := (collectRegions_err_iff (rustLines s)).mpr
      ⟨l, hl, by simpa using hbad⟩
    simp only [MemoryMap.from_str, he] at h
    cases h

/-- Closed form of a successful MemoryMap parse. -/
theorem fromStr_ok_eq {s : List Char} {m : MemoryMap}
    (h : MemoryMap.from_str s = Except.ok m) :
    m = ⟨sortByStart (((rustLines s).map parsedRegion).filter
          fun r => startsWithSlash r.path)⟩ := by
  have hc := collectRegions_ok _ (fromStr_ok_lines h)
  simp only [MemoryMap.from_str, hc] at h
  injection h with h'
  exact h'.symm

/-- C7: every successfully parsed MemoryMap is sorted ascending by start
and retains only regions whose path starts with a slash; in particular no
pseudo-region and no anonymous region survives. -/
theorem spec_C7_parse_invariants (s : List Char) (m : MemoryMap)
    (h : MemoryMap.from_str s = Except.ok m) :
    List.Pairwise (fun a b : Region => a.start ≤ b.start) m.files
    ∧ ∀ r ∈ m.files, startsWithSlash r.path = true
        ∧ r.path ≠ "[heap]".data ∧ r.path ≠ "[stack]".data
        ∧ r.path ≠ "[vdso]".data ∧ r.path ≠ "[vvar]".data ∧ r.path ≠ [] := by
  have hm := fromStr_ok_eq h
  subst hm
  constructor
  · have hs : List.Pairwise leStart
        (List.insertionSort leStart (((rustLines s).map parsedRegion).filter
          fun r => startsWithSlash r.path)) :=
      List.sorted_insertionSort leStart _
    exact List.Pairwise.imp (fun hab => hab) hs
  · intro r hr
    have hr' : r ∈ ((rustLines s).map parsedRegion).filter
        (fun r => startsWithSlash r.path) :=
      (List.Perm.mem_iff (List.perm_insertionSort leStart _)).mp hr
    have hp := (List.mem_filter.mp hr').2
    refine ⟨hp, ?_, ?_, ?_, ?_, ?_⟩ <;> intro heq <;> rw [heq] at hp <;>
      exact absurd hp (by decide)

/-- C7, witness: the three-line snapshot textBHeapA (unsorted, with a heap
pseudo-region) parses to the sorted two-region map, which satisfies all
the invariants. -/
theorem spec_C7_witness :
    List.Pairwise (fun a b : Region => a.start ≤ b.start)
        (MemoryMap.mk [regionA, regionB]).files
    ∧ ∀ r ∈ (MemoryMap.mk [regionA, regionB]).files, startsWithSlash r.path = true
        ∧ r.path ≠ "[heap]".data ∧ r.path ≠ "[stack]".data
        ∧ r.path ≠ "[vdso]".data ∧ r.path ≠ "[vvar]".data ∧ r.path ≠ [] :=
  spec_C7_parse_invariants textBHeapA ⟨[regionA, regionB]⟩ rfl

/-- Unfolding equation of the splitter on a cons. -/
theorem rustLinesAux_cons (acc : List Char) (x : Char) (xs : List Char) :
    rustLinesAux acc (x :: xs) =
      if x = '\n' then stripCR acc.reverse :: rustLinesAux [] xs
      else rustLinesAux (x :: acc) xs := rfl

/-- Unfolding equation of the splitter on the empty text. -/
theorem rustLinesAux_nil (acc : List Char) :
    rustLinesAux acc [] = if acc.isEmpty then [] else [acc.reverse] := rfl

/-- Unfolding equation of stripCR when the last character is known. -/
theorem stripCR_eq_some (l : List Char) (c : Char) (hl : l.getLast? = some c) :
    stripCR l = if c = '\r' then l.dropLast else l := by
  unfold stripCR
  rw [hl]

/-- Unfolding equation of stripCR on a line with no last character. -/
theorem stripCR_eq_none (l : List Char) (hl : l.getLast? = none) : stripCR l = l := by
  unfold stripCR
  rw [hl]

/-- Members of a stripped line are members of the line. -/
theorem mem_stripCR {x : Char} {l : List Char} (h : x ∈ stripCR l) : x ∈ l := by
  cases hl : l.getLast? with
  | none => rw [stripCR_eq_none l hl] at h; exact h
  | some c =>
    rw [stripCR_eq_some l c hl] at h
    by_cases hc : c = '\r'
    · rw [if_pos hc] at h
      exact List.dropLast_subset l h
    · rw [if_neg hc] at h; exact h

/-- Stripping does nothing to a line not ending in a carriage return. -/
theorem stripCR_eq_self {l : List Char} (h : l.getLast? ≠ some '\r') :
    stripCR l = l := by
  cases hl : l.getLast? with
  | none => exact stripCR_eq_none l hl
  | some c =>
    rw [stripCR_eq_some l c hl]
    by_cases hc : c = '\r'
    · subst hc; exact absurd hl h
    · rw [if_neg hc]

/-- Worker lemma: pieces produced by the splitter contain no newline. -/
theorem noNl_rustLinesAux : ∀ (s acc : List Char), '\n' ∉ acc →
    ∀ l ∈ rustLinesAux acc s, '\n' ∉ l := by
  intro s
  induction s with
  | nil =>
    intro acc hacc l hl
    rw [rustLinesAux_nil] at hl
    by_cases he : acc.isEmpty
    · rw [if_pos he] at hl; cases hl
    · rw [if_neg he] at hl
      rcases List.mem_cons.mp hl with rfl | hl'
      · intro hn; exact hacc (List.mem_reverse.mp hn)
      · cases hl'
  | cons c rest ih =>
    intro acc hacc l hl
    rw [rustLinesAux_cons] at hl
    by_cases hc : c = '\n'
    · rw [if_pos hc] at hl
      rcases List.mem_cons.mp hl with rfl | hl'
      · intro hn
        exact hacc (List.mem_reverse.mp (mem_stripCR hn))
      · exact ih [] (by simp) l hl'
    · rw [if_neg hc] at hl
      refine ih (c :: acc) ?_ l hl
      intro hn
      rcases List.mem_cons.mp hn with h | h
      · exact hc h.symm
      · exact hacc h

/-- Lines of a text contain no newline. -/
theorem noNl_rustLines (s : List Char) : ∀ l ∈ rustLines s, '\n' ∉ l :=
  noNl_rustLinesAux s [] (by simp)

/-- Splitting a text whose head piece is newline-free peels that piece. -/
theorem rustLinesAux_append (l rest : List Char) : ∀ acc : List Char, '\n' ∉ l →
    rustLinesAux acc (l ++ '\n' :: rest) =
      stripCR (acc.reverse ++ l) :: rustLinesAux [] rest := by
  induction l with
  | nil =>
    intro acc _
    rw [List.nil_append, rustLinesAux_cons, if_pos rfl, List.append_nil]
  | cons c l' ih =>
    intro acc hnl
    have hc : c ≠ '\n' := fun h => hnl (h ▸ List.mem_cons_self c l')
    rw [List.cons_append, rustLinesAux_cons, if_neg hc,
      ih (c :: acc) fun h => hnl (List.mem_cons_of_mem _ h)]
    congr 2
    simp [List.reverse_cons, List.append_assoc]

/-- Splitting a newline-free nonempty final piece yields that piece. -/
theorem rustLinesAux_last (l : List Char) : ∀ acc : List Char, '\n' ∉ l →
    acc.reverse ++ l ≠ [] → rustLinesAux acc l = [acc.reverse ++ l] := by
  induction l with
  | nil =>
    intro acc _ hne
    simp only [List.append_nil] at hne ⊢
    have he : acc.isEmpty = false := by
      cases acc with
      | nil => simp at hne
      | cons a as => rfl
    rw [rustLinesAux_nil, he]
    simp
  | cons c l' ih =>
    intro acc hnl hne
    have hc : c ≠ '\n' := fun h => hnl (h ▸ List.mem_cons_self c l')
    rw [rustLinesAux_cons, if_neg hc,
      ih (c :: acc) (fun h => hnl (List.mem_cons_of_mem _ h)) (by simp)]
    congr 1
    simp [List.reverse_cons, List.append_assoc]

/-- Joining then splitting is the identity on lists of lines that are
newline-free, nonempty and do not end in a carriage return. -/
theorem rustLines_joinLines : ∀ ls : List (List Char),
    (∀ l ∈ ls, '\n' ∉ l ∧ l ≠ [] ∧ l.getLast? ≠ some '\r') →
    rustLines (joinLines ls) = ls := by
  intro ls
  induction ls with
  | nil => intro _; rfl
  | cons l ls' ih =>
    intro h
    obtain ⟨hnl, hne, hcr⟩ := h l (List.mem_cons_self _ _)
    cases ls' with
    | nil =>
      show rustLinesAux [] l = [l]
      rw [rustLinesAux_last l [] hnl (by simpa using hne)]
      simp
    | cons l2 ls'' =>
      show rustLinesAux [] (l ++ '\n' :: joinLines (l2 :: ls'')) = l :: l2 :: ls''
      rw [rustLinesAux_append _ _ [] hnl]
      simp only [List.reverse_nil, List.nil_append]
      rw [stripCR_eq_self hcr]
      have ht := ih fun x hx => h x (List.mem_cons_of_mem _ hx)
      unfold rustLines at ht
      rw [ht]

/-- Matching lines are nonempty. -/
theorem regexOk_ne_nil {l : List Char} (h : regexOk l = true) : l ≠ [] := by
  simp only [regexOk, Bool.and_eq_true, decide_eq_true_eq] at h
  obtain ⟨⟨⟨⟨hlen, _⟩, _⟩, _⟩, _⟩ := h
  intro heq
  subst heq
  simp at hlen

/-- A stable sort by start is determined by the multiset when the start
addresses are pairwise distinct. -/
theorem sortByStart_eq_of_perm (l1 l2 : List Region) (hperm : l1.Perm l2)
    (hnodup : ((sortByStart l1).map Region.start).Nodup) :
    sortByStart l1 = sortByStart l2 := by
  have hs1 : List.Sorted leStart (sortByStart l1) := List.sorted_insertionSort leStart l1
  have hs2 : List.Sorted leStart (sortByStart l2) := List.sorted_insertionSort leStart l2
  have hp : (sortByStart l1).Perm (sortByStart l2) :=
    ((List.perm_insertionSort leStart l1).trans hperm).trans
      (List.perm_insertionSort leStart l2).symm
  have hnd1 : List.Pairwise (fun a b : Region => a.start ≠ b.start) (sortByStart l1) :=
    List.pairwise_map.mp hnodup
  have hnd2 : List.Pairwise (fun a b : Region => a.start ≠ b.start) (sortByStart l2) :=
    List.pairwise_map.mp ((List.Perm.nodup_iff (List.Perm.map Region.start hp)).mp hnodup)
  have hlt1 : List.Sorted ltStart (sortByStart l1) :=
    List.Pairwise.imp (fun hab => Nat.lt_of_le_of_ne hab.1 hab.2) (hs1.and hnd1)
  have hlt2 : List.Sorted ltStart (sortByStart l2) :=
    List.Pairwise.imp (fun hab => Nat.lt_of_le_of_ne hab.1 hab.2) (hs2.and hnd2)
  exact List.eq_of_perm_of_sorted hp hlt1 hlt2

/-- C9 (amended): for a successfully parsed snapshot whose retained
regions have pairwise distinct start addresses and whose lines do not end
in a carriage return, parsing any permutation of the lines succeeds and
yields the same MemoryMap. Without the distinct-start condition the claim
fails: a stable sort keeps equal-start regions in input order. -/
theorem spec_C9_perm_distinct_starts (s : List Char) (m : MemoryMap)
    (ls2 : List (List Char)) (hok : MemoryMap.from_str s = Except.ok m)
    (hperm : (rustLines s).Perm ls2)
    (hnodup : (m.files.map Region.start).Nodup)
    (hcr : ∀ l ∈ rustLines s, l.getLast? ≠ some '\r') :
    MemoryMap.from_str (joinLines ls2) = Except.ok m := by
  have hall := fromStr_ok_lines hok
  have hmeq := fromStr_ok_eq hok
  have hcond : ∀ l ∈ ls2, '\n' ∉ l ∧ l ≠ [] ∧ l.getLast? ≠ some '\r' := by
    intro l hl
    have hl1 : l ∈ rustLines s := hperm.mem_iff.mpr hl
    exact ⟨noNl_rustLines s l hl1, regexOk_ne_nil (hall l hl1), hcr l hl1⟩
  have hjoin : rustLines (joinLines ls2) = ls2 := rustLines_joinLines ls2 hcond
  have hall2 : ∀ l ∈ ls2, regexOk l = true := fun l hl => hall l (hperm.mem_iff.mpr hl)
  have hc2 := collectRegions_ok ls2 hall2
  have hred : MemoryMap.from_str (joinLines ls2) =
      Except.ok ⟨sortByStart ((ls2.map parsedRegion).filter
        fun r => startsWithSlash r.path)⟩ := by
    simp only [MemoryMap.from_str, hjoin, hc2]
  rw [hred, hmeq]
  have hpf : (((rustLines s).map parsedRegion).filter
      fun r => startsWithSlash r.path).Perm
        ((ls2.map parsedRegion).filter fun r => startsWithSlash r.path) :=
    List.Perm.filter _ (List.Perm.map parsedRegion hperm)
  have hnodup' : ((sortByStart (((rustLines s).map parsedRegion).filter
      fun r => startsWithSlash r.path)).map Region.start).Nodup := by
    rw [hmeq] at hnodup
    exact hnodup
  rw [sortByStart_eq_of_perm _ _ hpf hnodup']

/-- C9, witness: swapping the two (distinct-start) lines of textAB parses
to the same sorted MemoryMap. -/
theorem spec_C9_witness :
    MemoryMap.from_str (joinLines [lineB, lineA]) = Except.ok ⟨[regionA, regionB]⟩ :=
  spec_C9_perm_distinct_starts textAB ⟨[regionA, regionB]⟩ [lineB, lineA] rfl
    (by rw [show rustLines textAB = [lineA, lineB] from rfl]
        exact List.Perm.swap lineB lineA [])
    (by decide) (by decide)

/-- C9, counterexample: textSameAB and textSameBA are line permutations of
each other, both parse, and the two MemoryMaps differ (two regions share
the start address 0, and the stable sort keeps them in input order). -/
theorem spec_C9_counterexample :
    (rustLines textSameAB).Perm (rustLines textSameBA)
    ∧ ∃ m1 m2, MemoryMap.from_str textSameAB = Except.ok m1
        ∧ MemoryMap.from_str textSameBA = Except.ok m2 ∧ m1 ≠ m2 := by
  constructor
  · rw [show rustLines textSameAB = [lineA, lineA2] from rfl,
      show rustLines textSameBA = [lineA2, lineA] from rfl]
    exact List.Perm.swap lineA2 lineA []
  · exact ⟨⟨[regionA, regionA2]⟩, ⟨[regionA2, regionA]⟩, rfl, rfl, by decide⟩

/-! ### Stack walk -/

/-- Unfolding equation of the fueled walk at zero fuel. -/
theorem walkLRs_zero (mem : Nat → Nat) (fp : Nat) :
    walkLRs mem 0 fp = if fp = 0 then some [] else none := rfl

/-- Unfolding equation of the fueled walk at positive fuel. -/
theorem walkLRs_succ (mem : Nat → Nat) (fuel fp : Nat) :
    walkLRs mem (fuel + 1) fp =
      if fp = 0 then some []
      else
        match walkLRs mem fuel (mem fp % U64) with
        | some rest => some (mem ((fp + 8) % U64) % U64 :: rest)
        | none => none := rfl

/-- Unfolding equation of the fueled decision loop at zero fuel. -/
theorem walkDecide_zero (cfg : Config) (map : MemoryMap) (syscall : Nat)
    (mem : Nat → Nat) (fp : Nat) :
    walkDecide cfg map syscall mem 0 fp = if fp = 0 then some none else none := rfl

/-- Unfolding equation of the fueled decision loop at positive fuel. -/
theorem walkDecide_succ (cfg : Config) (map : MemoryMap) (syscall : Nat)
    (mem : Nat → Nat) (fuel fp : Nat) :
    walkDecide cfg map syscall mem (fuel + 1) fp =
      if fp = 0 then some none
      else
        match probeStep cfg map syscall (mem ((fp + 8) % U64) % U64) with
        | some r => some r
        | none => walkDecide cfg map syscall mem fuel (mem fp % U64) := rfl

/-- Unfolding equation of the spec-side verdict fold. -/
theorem firstDecisiveVerdict_cons (cfg : Config) (map : MemoryMap) (syscall : Nat)
    (addr : Nat) (rest : List Nat) :
    firstDecisiveVerdict cfg map syscall (addr :: rest) =
      match probeStep cfg map syscall addr with
      | some r => r
      | none => firstDecisiveVerdict cfg map syscall rest := rfl

/-- Unfolding equation of the decision pipeline (the let is expanded). -/
theorem handle_syscall_eq (cfg : Config) (map : MemoryMap) (regs : Regs)
    (mem : Nat → Nat) (fuel : Nat) :
    handle_syscall cfg map regs mem fuel =
      match probeStep cfg map (regs.regs 8 % 2 ^ 32) (regs.pc % U64) with
      | some r => some r
      | none =>
        match probeStep cfg map (regs.regs 8 % 2 ^ 32) (regs.regs 30 % U64) with
        | some r => some r
        | none =>
          walkDecide cfg map (regs.regs 8 % 2 ^ 32) mem fuel (regs.regs 29 % U64) := rfl

/-- One step of the frame chain commutes with its start. -/
theorem fpChain_succ_shift (mem : Nat → Nat) (fp : Nat) :
    ∀ k : Nat, fpChain mem fp (k + 1) = fpChain mem (mem fp % U64) k := by
  intro k
  induction k with
  | zero => rfl
  | succ k ih =>
    show mem (fpChain mem fp (k + 1)) % U64 = mem (fpChain mem (mem fp % U64) k) % U64
    rw [ih]

/-- When the chain first reaches 0 at step n and fuel suffices, the walk
yields exactly the saved link registers of the n frame records. -/
theorem walkLRs_eq_of_chain (mem : Nat → Nat) :
    ∀ (n fuel fp : Nat), fpChain mem fp n = 0 → (∀ m, m < n → fpChain mem fp m ≠ 0) →
    n ≤ fuel →
    walkLRs mem fuel fp =
      some ((List.range n).map fun i => mem ((fpChain mem fp i + 8) % U64) % U64) := by
  intro n
  induction n with
  | zero =>
    intro fuel fp h0 _ _
    have hfp : fp = 0 := h0
    subst hfp
    cases fuel with
    | zero => rfl
    | succ f => rfl
  | succ n ih =>
    intro fuel fp h0 hmin hfuel
    have hfp : fp ≠ 0 := hmin 0 (Nat.succ_pos n)
    cases fuel with
    | zero => omega
    | succ f =>
      have h0' : fpChain mem (mem fp % U64) n = 0 := by
        rw [← fpChain_succ_shift]; exact h0
      have hmin' : ∀ m, m < n → fpChain mem (mem fp % U64) m ≠ 0 := by
        intro m hm
        rw [← fpChain_succ_shift]
        exact hmin (m + 1) (by omega)
      rw [walkLRs_succ, if_neg hfp, ih f (mem fp % U64) h0' hmin' (by omega)]
      have hhead : mem ((fp + 8) % U64) % U64 =
          mem ((fpChain mem fp 0 + 8) % U64) % U64 := rfl
      have htail : (List.range n).map
            (fun i => mem ((fpChain mem (mem fp % U64) i + 8) % U64) % U64) =
          (List.range n).map
            (fun i => mem ((fpChain mem fp (i + 1) + 8) % U64) % U64) :=
        List.map_congr_left fun i _ => by rw [fpChain_succ_shift]
      rw [List.range_succ_eq_map, List.map_cons, List.map_map]
      exact congrArg some (by rw [← hhead, htail]; rfl)

/-- C3: the probe-address sequence is exactly pc, then x30, then for each
frame i the saved lr read from FP_i + 8, where FP_0 = x29 and FP_(i+1) is
the word read at FP_i, until the first FP equal to 0; and a zero frame
pointer ends the walk immediately with no memory read (the result is some
[] for every memory function and fuel). -/
theorem spec_C3_walk_order (regs : Regs) (mem : Nat → Nat) (n fuel : Nat)
    (h0 : fpChain mem (regs.regs 29 % U64) n = 0)
    (hmin : ∀ m, m < n → fpChain mem (regs.regs 29 % U64) m ≠ 0)
    (hfuel : n ≤ fuel) :
    probeAddresses regs mem fuel =
      some (regs.pc % U64 :: regs.regs 30 % U64 ::
        (List.range n).map fun i =>
          mem ((fpChain mem (regs.regs 29 % U64) i + 8) % U64) % U64)
    ∧ ∀ (mem' : Nat → Nat) (fuel' : Nat), walkLRs mem' fuel' 0 = some [] := by
  constructor
  · unfold probeAddresses
    rw [walkLRs_eq_of_chain mem n fuel _ h0 hmin hfuel]
  · intro mem' fuel'
    cases fuel' with
    | zero => rfl
    | succ f => rfl

/-- C3, witness: with x29 = 16, a frame record [0, 100] at 16 and one
frame, the walk probes pc, x30, then 100, and the zero sentinel always
yields the empty walk. -/
theorem spec_C3_witness :
    probeAddresses regsW memW 1 =
      some (regsW.pc % U64 :: regsW.regs 30 % U64 ::
        (List.range 1).map fun i =>
          memW ((fpChain memW (regsW.regs 29 % U64) i + 8) % U64) % U64)
    ∧ ∀ (mem' : Nat → Nat) (fuel' : Nat), walkLRs mem' fuel' 0 = some [] :=
  spec_C3_walk_order regsW memW 1 1 (by decide)
    (by
      intro m hm c
      interval_cases m
      exact absurd c (by decide))
    (le_refl 1)

/-- The fueled decision loop computes the first decisive verdict of the
saved link registers the fueled walk yields. -/
theorem walkDecide_eq_firstVerdict (cfg : Config) (map : MemoryMap) (syscall : Nat)
    (mem : Nat → Nat) :
    ∀ (fuel fp : Nat) (lrs : List Nat), walkLRs mem fuel fp = some lrs →
    walkDecide cfg map syscall mem fuel fp =
      some (firstDecisiveVerdict cfg map syscall lrs) := by
  intro fuel
  induction fuel with
  | zero =>
    intro fp lrs h
    rw [walkLRs_zero] at h
    by_cases hfp : fp = 0
    · rw [if_pos hfp] at h
      injection h with h'
      subst h'
      rw [walkDecide_zero, if_pos hfp]
      rfl
    · rw [if_neg hfp] at h
      cases h
  | succ f ih =>
    intro fp lrs h
    rw [walkLRs_succ] at h
    by_cases hfp : fp = 0
    · rw [if_pos hfp] at h
      injection h with h'
      subst h'
      rw [walkDecide_succ, if_pos hfp]
      rfl
    · rw [if_neg hfp] at h
      cases hw : walkLRs mem f (mem fp % U64) with
      | none => rw [hw] at h; cases h
      | some rest =>
        rw [hw] at h
        injection h with h'
        subst h'
        rw [walkDecide_succ, if_neg hfp, firstDecisiveVerdict_cons]
        cases hp : probeStep cfg map syscall (mem ((fp + 8) % U64) % U64) with
        | some r => rfl
        | none => exact ih _ rest hw

/-- C1: whenever the frame walk terminates, handle_syscall returns exactly
the first decisive verdict over the probe addresses in walk order: an
Allowed before any Blocked permits the call (None), a Blocked with no
earlier Allowed returns IllegalSyscall with the syscall number and the
object path of that probe, and a walk of only Unknown or unmapped probes
permits the call. -/
theorem spec_C1_first_decisive_verdict (cfg : Config) (map : MemoryMap) (regs : Regs)
    (mem : Nat → Nat) (fuel : Nat) (lrs : List Nat)
    (h : walkLRs mem fuel (regs.regs 29 % U64) = some lrs) :
    handle_syscall cfg map regs mem fuel =
      some (firstDecisiveVerdict cfg map (regs.regs 8 % 2 ^ 32)
        (regs.pc % U64 :: regs.regs 30 % U64 :: lrs)) := by
  rw [handle_syscall_eq, firstDecisiveVerdict_cons]
  cases h1 : probeStep cfg map (regs.regs 8 % 2 ^ 32) (regs.pc % U64) with
  | some r => rfl
  | none =>
    rw [firstDecisiveVerdict_cons]
    cases h2 : probeStep cfg map (regs.regs 8 % 2 ^ 32) (regs.regs 30 % U64) with
    | some r => rfl
    | none => exact walkDecide_eq_firstVerdict cfg map _ mem fuel _ lrs h

/-- C1, witness: on the sample stop (pc and x30 unmapped or mapped with no
entry, saved lr 100), the pipeline result equals the first decisive
verdict of the three probes. -/
theorem spec_C1_witness :
    handle_syscall cfgW mapW regsW memW 1 =
      some (firstDecisiveVerdict cfgW mapW (regsW.regs 8 % 2 ^ 32)
        (regsW.pc % U64 :: regsW.regs 30 % U64 :: [100])) :=
  spec_C1_first_decisive_verdict cfgW mapW regsW memW 1 [100] (by decide)

/-- The walk succeeds with fuel n when the chain reaches 0 at step n. -/
theorem walkLRs_total_of_chain (mem : Nat → Nat) :
    ∀ (n fp : Nat), fpChain mem fp n = 0 → ∃ lrs, walkLRs mem n fp = some lrs := by
  intro n
  induction n with
  | zero =>
    intro fp h0
    have hfp : fp = 0 := h0
    subst hfp
    exact ⟨[], rfl⟩
  | succ n ih =>
    intro fp h0
    by_cases hfp : fp = 0
    · exact ⟨[], by rw [walkLRs_succ, if_pos hfp]⟩
    · have h0' : fpChain mem (mem fp % U64) n = 0 := by
        rw [← fpChain_succ_shift]; exact h0
      obtain ⟨rest, hrest⟩ := ih (mem fp % U64) h0'
      exact ⟨mem ((fp + 8) % U64) % U64 :: rest,
        by rw [walkLRs_succ, if_neg hfp, hrest]⟩

/-- A successful walk forces the chain to reach 0. -/
theorem chain_zero_of_walkLRs (mem : Nat → Nat) :
    ∀ (fuel fp : Nat) (lrs : List Nat), walkLRs mem fuel fp = some lrs →
    ∃ n, fpChain mem fp n = 0 := by
  intro fuel
  induction fuel with
  | zero =>
    intro fp lrs h
    rw [walkLRs_zero] at h
    by_cases hfp : fp = 0
    · exact ⟨0, hfp⟩
    · rw [if_neg hfp] at h; cases h
  | succ f ih =>
    intro fp lrs h
    by_cases hfp : fp = 0
    · exact ⟨0, hfp⟩
    · rw [walkLRs_succ, if_neg hfp] at h
      cases hw : walkLRs mem f (mem fp % U64) with
      | none => rw [hw] at h; cases h
      | some rest =>
        obtain ⟨n, hn⟩ := ih (mem fp % U64) rest hw
        exact ⟨n + 1, by rw [fpChain_succ_shift]; exact hn⟩

/-- C4 (amended): the probe sequence of a stop is finite exactly when the
frame-pointer chain from x29 reaches the 0 sentinel after finitely many
steps; the code imposes no sanity cap, so on a chain that never reaches 0
the walk does not terminate. -/
theorem spec_C4_walk_finite_iff_chain :
    ∀ (regs : Regs) (mem : Nat → Nat),
      (∃ fuel ps, probeAddresses regs mem fuel = some ps) ↔
        ∃ n, fpChain mem (regs.regs 29 % U64) n = 0 := by
  intro regs mem
  constructor
  · rintro ⟨fuel, ps, h⟩
    unfold probeAddresses at h
    cases hw : walkLRs mem fuel (regs.regs 29 % U64) with
    | none => rw [hw] at h; cases h
    | some lrs => exact chain_zero_of_walkLRs mem fuel _ lrs hw
  · rintro ⟨n, hn⟩
    obtain ⟨lrs, hlrs⟩ := walkLRs_total_of_chain mem n _ hn
    refine ⟨n, regs.pc % U64 :: regs.regs 30 % U64 :: lrs, ?_⟩
    unfold probeAddresses
    rw [hlrs]

/-- The walk never finishes on the constant-1 memory from frame pointer 1. -/
theorem walkLRs_const_one_none : ∀ fuel : Nat, walkLRs (fun _ => 1) fuel 1 = none := by
  intro fuel
  induction fuel with
  | zero => rfl
  | succ f ih =>
    rw [walkLRs_succ, if_neg one_ne_zero,
      show (fun _ : Nat => 1) 1 % U64 = 1 by norm_num [U64], ih]

/-- C4, counterexample: with every memory word equal to 1 and x29 = 1, the
frame-pointer walk never terminates, so the probe sequence of this stop is
not finite; the claim quantifies over every memory-read function and
fails here. -/
theorem spec_C4_counterexample :
    ¬ ∃ fuel ps, probeAddresses regsCyc (fun _ => 1) fuel = some ps := by
  rintro ⟨fuel, ps, h⟩
  unfold probeAddresses at h
  rw [show regsCyc.regs 29 % U64 = 1 by decide, walkLRs_const_one_none fuel] at h
  exact Option.noConfusion h

/-- A probe never produces an Exited value. -/
theorem probeStep_no_exited (cfg : Config) (map : MemoryMap) (syscall addr : Nat)
    (c : Int) : probeStep cfg map syscall addr ≠ some (some (ChildExit.Exited c)) := by
  cases hl : map.lookup addr with
  | none => simp [probeStep, hl]
  | some loc => cases hc : cfg.check loc syscall <;> simp [probeStep, hl, hc]

/-- The frame-walk decision loop never produces an Exited value. -/
theorem walkDecide_no_exited (cfg : Config) (map : MemoryMap) (syscall : Nat)
    (mem : Nat → Nat) (c : Int) :
    ∀ fuel fp : Nat,
      walkDecide cfg map syscall mem fuel fp ≠ some (some (ChildExit.Exited c)) := by
  intro fuel
  induction fuel with
  | zero =>
    intro fp
    rw [walkDecide_zero]
    by_cases hfp : fp = 0
    · rw [if_pos hfp]; simp
    · rw [if_neg hfp]; simp
  | succ f ih =>
    intro fp
    rw [walkDecide_succ]
    by_cases hfp : fp = 0
    · rw [if_pos hfp]; simp
    · rw [if_neg hfp]
      cases hp : probeStep cfg map syscall (mem ((fp + 8) % U64) % U64) with
      | some r =>
        intro h
        injection h with h'
        rw [h'] at hp
        exact probeStep_no_exited cfg map syscall _ c hp
      | none => exact ih (mem fp % U64)

/-- handle_syscall never returns an Exited value: it permits (None) or
reports an IllegalSyscall. This discharges the event-stream hypothesis of
the supervisor-loop claim. -/
theorem handle_syscall_no_exited (cfg : Config) (map : MemoryMap) (regs : Regs)
    (mem : Nat → Nat) (fuel : Nat) (c : Int) :
    handle_syscall cfg map regs mem fuel ≠ some (some (ChildExit.Exited c)) := by
  rw [handle_syscall_eq]
  cases h1 : probeStep cfg map (regs.regs 8 % 2 ^ 32) (regs.pc % U64) with
  | some r =>
    intro h
    injection h with h'
    rw [h'] at h1
    exact probeStep_no_exited cfg map _ _ c h1
  | none =>
    cases h2 : probeStep cfg map (regs.regs 8 % 2 ^ 32) (regs.regs 30 % U64) with
    | some r =>
      intro h
      injection h with h'
      rw [h'] at h2
      exact probeStep_no_exited cfg map _ _ c h2
    | none => exact walkDecide_no_exited cfg map _ mem c fuel _

/-! ### Supervisor loop -/

/-- A no-root-exit window shifts under a head event that is no root
exit. -/
theorem exitedBefore_shift_none {root : Nat} {evs : List WEvent} {j : Nat}
    {e : WEvent} (hne : ∀ c : Int, e ≠ WEvent.exited root c)
    (hnone : ∀ m c, m < j → evs.get? m ≠ some (WEvent.exited root c)) :
    ∀ m c, m < j + 1 → (e :: evs).get? m ≠ some (WEvent.exited root c) := by
  intro m c hm
  cases m with
  | zero =>
    rw [List.get?_cons_zero]
    intro heq
    rw [Option.some.injEq] at heq
    exact hne c heq
  | succ m' =>
    rw [List.get?_cons_succ]
    exact hnone m' c (by omega)

/-- Pattern shared by every dispatch arm that continues the loop without
recording a root exit: the analysis shifts across the head event. -/
theorem exitedBefore_shift {root : Nat} {evs : List WEvent} {cur : Option Int} {k : Int}
    {e : WEvent} (hne : ∀ c : Int, e ≠ WEvent.exited root c)
    (h : exitedBefore root evs cur k) : exitedBefore root (e :: evs) cur k := by
  obtain ⟨j, hech, disj⟩ := h
  refine ⟨j + 1, by rw [List.get?_cons_succ]; exact hech, ?_⟩
  rcases disj with ⟨i, hij, hexit, hbet⟩ | ⟨hcur, hnone⟩
  · exact Or.inl ⟨i + 1, by omega, by rw [List.get?_cons_succ]; exact hexit, by
      intro m c hm1 hm2
      cases m with
      | zero => omega
      | succ m' =>
        rw [List.get?_cons_succ]
        exact hbet m' c (by omega) (by omega)⟩
  · exact Or.inr ⟨hcur, exitedBefore_shift_none hne hnone⟩

/-- Core analysis of the supervisor loop: a return of Exited k means some
ECHILD event returned it, and the code k is the last root exit recorded
before that event (or the incoming recorded code if no root exit
precedes). The hypothesis reflects handle_syscall, which never produces an
Exited value (it returns None or IllegalSyscall). -/
theorem parent_loop_ret_exited (root : Nat) :
    ∀ (evs : List WEvent) (cur : Option Int) (ign : List Nat) (k : Int),
      (∀ p h, WEvent.ptraceSyscall p h ∈ evs → ∀ c, h ≠ some (ChildExit.Exited c)) →
      parent_loop root evs cur ign = LoopResult.ret (ChildExit.Exited k) →
      exitedBefore root evs cur k := by
  intro evs
  induction evs with
  | nil =>
    intro cur ign k _ h
    cases h
  | cons e evs ih =>
    intro cur ign k hsys h
    have hsys' : ∀ p h', WEvent.ptraceSyscall p h' ∈ evs →
        ∀ c, h' ≠ some (ChildExit.Exited c) :=
      fun p h' hm c => hsys p h' (List.mem_cons_of_mem _ hm) c
    cases e with
    | echild =>
      cases cur with
      | none =>
        have hstep : parent_loop root (WEvent.echild :: evs) none ign =
            LoopResult.fatal := rfl
        rw [hstep] at h
        cases h
      | some code =>
        have hstep : parent_loop root (WEvent.echild :: evs) (some code) ign =
            LoopResult.ret (ChildExit.Exited code) := rfl
        rw [hstep] at h
        injection h with h'
        injection h' with h''
        subst h''
        exact ⟨0, rfl, Or.inr ⟨rfl, fun m c hm => absurd hm (by omega)⟩⟩
    | exited pid code =>
      have hstep : parent_loop root (WEvent.exited pid code :: evs) cur ign =
          parent_loop root evs (if pid = root then some code else cur) ign := rfl
      rw [hstep] at h
      have hrec := ih _ ign k hsys' h
      by_cases hpid : pid = root
      · subst hpid
        rw [if_pos rfl] at hrec
        obtain ⟨j, hech, disj⟩ := hrec
        refine ⟨j + 1, by rw [List.get?_cons_succ]; exact hech, ?_⟩
        rcases disj with ⟨i, hij, hexit, hbet⟩ | ⟨hcur, hnone⟩
        · exact Or.inl ⟨i + 1, by omega,
            by rw [List.get?_cons_succ]; exact hexit, by
              intro m c hm1 hm2
              cases m with
              | zero => omega
              | succ m' =>
                rw [List.get?_cons_succ]
                exact hbet m' c (by omega) (by omega)⟩
        · injection hcur with hck
          subst hck
          exact Or.inl ⟨0, by omega, rfl, by
            intro m c hm1 hm2
            cases m with
            | zero => omega
            | succ m' =>
              rw [List.get?_cons_succ]
              exact hnone m' c (by omega)⟩
      · rw [if_neg hpid] at hrec
        refine exitedBefore_shift ?_ hrec
        intro c heq
        injection heq with h1 _
        exact hpid h1
    | ptraceSyscall pid handled =>
      cases handled with
      | some exit =>
        have hstep : parent_loop root (WEvent.ptraceSyscall pid (some exit) :: evs)
            cur ign = LoopResult.ret exit := rfl
        rw [hstep] at h
        injection h with h'
        exact absurd h'
          (hsys pid (some exit) (List.mem_cons_self _ _) k ∘ fun hx => by rw [hx])
      | none =>
        have hstep : parent_loop root (WEvent.ptraceSyscall pid none :: evs) cur ign =
            parent_loop root evs cur ign := rfl
        rw [hstep] at h
        exact exitedBefore_shift (fun c heq => WEvent.noConfusion heq)
          (ih cur ign k hsys' h)
    | stopped pid signal =>
      have hstep : parent_loop root (WEvent.stopped pid signal :: evs) cur ign =
          if signal = SIGSTOP ∧ pid ∈ ign then
            parent_loop root evs cur (ign.erase pid)
          else parent_loop root evs cur ign := rfl
      rw [hstep] at h
      by_cases hcond : signal = SIGSTOP ∧ pid ∈ ign
      · rw [if_pos hcond] at h
        exact exitedBefore_shift (fun c heq => WEvent.noConfusion heq)
          (ih cur _ k hsys' h)
      · rw [if_neg hcond] at h
        exact exitedBefore_shift (fun c heq => WEvent.noConfusion heq)
          (ih cur ign k hsys' h)
    | ptraceEventExec pid =>
      have hstep : parent_loop root (WEvent.ptraceEventExec pid :: evs) cur ign =
          parent_loop root evs cur ign := rfl
      rw [hstep] at h
      exact exitedBefore_shift (fun c heq => WEvent.noConfusion heq)
        (ih cur ign k hsys' h)
    | ptraceEventForkLike pid newPid =>
      have hstep : parent_loop root (WEvent.ptraceEventForkLike pid newPid :: evs)
          cur ign =
          if newPid ∈ ign then LoopResult.fatal
          else parent_loop root evs cur (newPid :: ign) := rfl
      rw [hstep] at h
      by_cases hmem : newPid ∈ ign
      · rw [if_pos hmem] at h
        cases h
      · rw [if_neg hmem] at h
        exact exitedBefore_shift (fun c heq => WEvent.noConfusion heq)
          (ih cur _ k hsys' h)
    | otherStatus =>
      have hstep : parent_loop root (WEvent.otherStatus :: evs) cur ign =
          LoopResult.fatal := rfl
      rw [hstep] at h
      cases h
    | waitError =>
      have hstep : parent_loop root (WEvent.waitError :: evs) cur ign =
          LoopResult.fatal := rfl
      rw [hstep] at h
      cases h

/-- C5: if the loop started with no recorded exit code returns Exited k,
then a root-exit event with code k precedes an ECHILD event with no later
root exit in between (so descendant exits never determine the code); and
an ECHILD processed before any root exit was recorded aborts fatally
rather than returning a ChildExit. -/
theorem spec_C5_parent_exit (root : Nat) (evs : List WEvent) (ign : List Nat) (k : Int)
    (hsys : ∀ p h, WEvent.ptraceSyscall p h ∈ evs → ∀ c, h ≠ some (ChildExit.Exited c)) :
    (parent_loop root evs none ign = LoopResult.ret (ChildExit.Exited k) →
      ∃ i j, i < j ∧ evs.get? i = some (WEvent.exited root k)
        ∧ evs.get? j = some WEvent.echild
        ∧ ∀ m c, i < m → m < j → evs.get? m ≠ some (WEvent.exited root c))
    ∧ ∀ evs2 : List WEvent,
        parent_loop root (WEvent.echild :: evs2) none ign = LoopResult.fatal := by
  constructor
  · intro h
    obtain ⟨j, hech, disj⟩ := parent_loop_ret_exited root evs none ign k hsys h
    rcases disj with ⟨i, hij, hexit, hbet⟩ | ⟨hcur, _⟩
    · exact ⟨i, j, hij, hexit, hech, hbet⟩
    · cases hcur
  · intro evs2
    rfl

/-- C5, witness: on the stream [root exits with 7, ECHILD] the loop
returns Exited 7, the root-exit event precedes the ECHILD event, and an
early ECHILD is fatal. -/
theorem spec_C5_witness :
    (parent_loop 1 evsW none [] = LoopResult.ret (ChildExit.Exited 7) →
      ∃ i j, i < j ∧ evsW.get? i = some (WEvent.exited 1 7)
        ∧ evsW.get? j = some WEvent.echild
        ∧ ∀ m c, i < m → m < j → evsW.get? m ≠ some (WEvent.exited 1 c))
    ∧ ∀ evs2 : List WEvent,
        parent_loop 1 (WEvent.echild :: evs2) none [] = LoopResult.fatal :=
  spec_C5_parent_exit 1 evsW [] 7 (by
    intro p h hm c
    simp [evsW] at hm)

end Crabtrap
